import Mathlib

/-!
Shallow embedding of the dual-illumination defect inspector's core:
bright-field / dark-field segmentation (`bright_field_processor.py`,
`dark_field_processor.py`), the result-overlay compositing of
`aoi_main_window.perform_calculation`, and the synchronized viewer's
zoom and ROI-editing logic (`sync_image_viewer.py`).

Images are flattened buffers of 8-bit samples, modelled as `List ℕ`
with values in `[0, 255]`.  OpenCV primitives with simple documented
per-pixel semantics (`cv2.threshold`, `cv2.bitwise_and`,
`cv2.bitwise_not`, `cv2.subtract`, `cv2.cvtColor(GRAY2BGR)`, boolean
mask assignment `view[mask == 255] = color`) are given concrete
definitions; the filtering primitives whose inner numerics are outside
the verified core (`cv2.GaussianBlur`, `cv2.resize`, `cv2.dilate`) are
passed in as function parameters.  Real-valued state (the shared view
transform, ROI rectangles, the robust threshold) is modelled over `ℚ`,
the exact-arithmetic idealisation of the program's floats.
-/

namespace AOI

/-- A BGR colour triple, one entry of a 3-channel display buffer. -/
abbrev Color := ℕ × ℕ × ℕ

/-- BGR red `[0, 0, 255]`, used for BF / defect pixels. -/
def redBGR : Color := (0, 0, 255)

/-- BGR green `[0, 255, 0]`, used for DF pixels. -/
def greenBGR : Color := (0, 255, 0)

/-- BGR yellow `[0, 255, 255]`, used for BF∧DF overlap pixels. -/
def yellowBGR : Color := (0, 255, 255)

/-- `cv2.cvtColor(..., cv2.COLOR_GRAY2BGR)` on one pixel. -/
def gray2bgr (v : ℕ) : Color := (v, v, v)

/-- One pixel of `cv2.threshold(src, thresh, 255, type)`:
`THRESH_BINARY` gives 255 exactly when the source sample is strictly
greater than the threshold, `THRESH_BINARY_INV` is its complement.
The threshold is an integer (the GUI spin boxes are integer-valued). -/
def cvThresholdPixel (inverse : Bool) (thresh : ℤ) (v : ℕ) : ℕ :=
  if inverse then (if thresh < (v : ℤ) then 0 else 255)
  else (if thresh < (v : ℤ) then 255 else 0)

/-- Whole-image `cv2.threshold(src, thresh, 255, ...)`. -/
def cvThreshold (inverse : Bool) (thresh : ℤ) (img : List ℕ) : List ℕ :=
  img.map (cvThresholdPixel inverse thresh)

/-- `view[mask == 255] = c`: numpy boolean-mask assignment painting `c`
at every index whose mask sample is 255. -/
def paintWhere (mask : List ℕ) (c : Color) (view : List Color) : List Color :=
  List.zipWith (fun m p => if m = 255 then c else p) mask view

/-- `cv2.subtract` on `uint8`: saturating per-pixel subtraction. -/
def cvSubtract (g1 g2 : List ℕ) : List ℕ :=
  List.zipWith (fun a b => a - b) g1 g2

/-- The OpenCV filtering primitives used by the processors whose inner
numerics are outside the verified core; the embedding is parametric in
them.  `gaussianBlurK img k` is `cv2.GaussianBlur(img, (k, k), 0)`,
`gaussianBlurS img s` is `cv2.GaussianBlur(img, (0, 0), sigmaX=s,
sigmaY=s)`, `resizeDown` / `resizeUp` are the
`cv2.resize(..., INTER_AREA)` calls of the DoG path. -/
structure CvPrims where
  gaussianBlurK : List ℕ → ℕ → List ℕ
  gaussianBlurS : List ℕ → ℚ → List ℕ
  resizeDown : List ℕ → List ℕ
  resizeUp : List ℕ → List ℕ

/-- A trivial instantiation of the filtering primitives (identity
filters), used to evaluate the embedding at concrete inputs. -/
def idPrims : CvPrims := ⟨fun l _ => l, fun l _ => l, id, id⟩

/-- `dog_highpass_u8`: difference of two Gaussian blurs, clamped at 0. -/
def dog_highpass_u8 (cv : CvPrims) (img : List ℕ) (sigma1 sigma2 : ℚ) : List ℕ :=
  cvSubtract (cv.gaussianBlurS img sigma1) (cv.gaussianBlurS img sigma2)

/-- `np.median` on a list of rationals: middle element of the sorted
sample for odd length, mean of the two middle elements for even length. -/
def npMedian (l : List ℚ) : ℚ :=
  let s := List.insertionSort (· ≤ ·) l
  if s.length % 2 = 1 then s.getD (s.length / 2) 0
  else (s.getD (s.length / 2 - 1) 0 + s.getD (s.length / 2) 0) / 2

/-- Python `int(...)` on a rational: truncation toward zero. -/
def pyInt (q : ℚ) : ℤ := if q < 0 then -(⌊-q⌋) else ⌊q⌋

/-- `robust_thr_median_mad` from `bright_field_processor.py`:
`int(np.clip(median + k * 1.4826 * (MAD + 1e-6), min_thr, max_thr))`
where `MAD` is the median absolute deviation from the median. -/
def robust_thr_median_mad (img_u8 : List ℕ) (k : ℚ) (min_thr : ℤ)
    (max_thr : ℤ) : ℤ :=
  let x : List ℚ := img_u8.map (fun v => (v : ℚ))
  let med := npMedian x
  let mad := npMedian (x.map (fun v => |v - med|)) + 1 / 1000000
  let thr := med + k * (14826 / 10000) * mad
  pyInt (min (max_thr : ℚ) (max (min_thr : ℚ) thr))

/-- The `dog_params` dictionary (with its `.get` defaults). -/
structure DogParams where
  sigma1 : ℚ := 8 / 10
  sigma2 : ℚ := 24 / 10
  k : ℚ := 1
  min_thr : ℤ := 5

/-- The BF method selector of `process_bright_field`. -/
inductive BfMethod where
  | blur_threshold
  | dog_highpass

/-- The optional Gaussian pre-blur of the `blur_threshold` branch:
applied only when enabled and the kernel size exceeds 1, with even
kernel sizes rounded up to the next odd value. -/
def bf_preprocessed (cv : CvPrims) (g : List ℕ) (blur_enabled : Bool)
    (blur_ksize : ℕ) : List ℕ :=
  if blur_enabled && decide (1 < blur_ksize) then
    cv.gaussianBlurK g (if blur_ksize % 2 = 1 then blur_ksize else blur_ksize + 1)
  else g

/-- `process_bright_field`: returns `(bf_for_process, mask_bf,
view_bf_bgr)`, each absent when the input image is absent. -/
def process_bright_field (cv : CvPrims) (img_bf_gray : Option (List ℕ))
    (thresh_bf : ℤ) (show_mask : Bool) (blur_enabled : Bool)
    (blur_ksize : ℕ) (inverse_threshold : Bool) (method : BfMethod)
    (dog_params : DogParams) :
    Option (List ℕ) × Option (List ℕ) × Option (List Color) :=
  match img_bf_gray with
  | none => (none, none, none)
  | some g =>
    let pm : List ℕ × List ℕ :=
      match method with
      | .dog_highpass =>
        let small := cv.resizeDown g
        let hp := dog_highpass_u8 cv small dog_params.sigma1 dog_params.sigma2
        let thr_val := robust_thr_median_mad hp dog_params.k dog_params.min_thr 255
        let mask_small := cvThreshold inverse_threshold thr_val hp
        (cv.resizeUp hp, cv.resizeUp mask_small)
      | .blur_threshold =>
        let bfp := bf_preprocessed cv g blur_enabled blur_ksize
        (bfp, cvThreshold inverse_threshold thresh_bf bfp)
    let view := pm.1.map gray2bgr
    (some pm.1, some pm.2,
      some (if show_mask then paintWhere pm.2 redBGR view else view))

/-- `process_dark_field`: returns `(img_df_gray, mask_df_raw,
mask_df_dilated, view_df_bgr)`, each absent when the input is absent.
`dilate raw k n` stands for `cv2.dilate(raw, np.ones((k, k)), n)`. -/
def process_dark_field (dilate : List ℕ → ℕ → ℕ → List ℕ)
    (img_df_gray : Option (List ℕ)) (thresh_df : ℤ) (show_mask : Bool)
    (ksize iters : ℕ) (inverse_threshold : Bool) :
    Option (List ℕ) × Option (List ℕ) × Option (List ℕ) × Option (List Color) :=
  match img_df_gray with
  | none => (none, none, none, none)
  | some g =>
    let mask_df_raw := cvThreshold inverse_threshold thresh_df g
    let mask_df_dilated :=
      if decide (0 < iters) && decide (1 < ksize) then dilate mask_df_raw ksize iters
      else mask_df_raw
    let view := g.map gray2bgr
    (some g, some mask_df_raw, some mask_df_dilated,
      some (if show_mask then paintWhere mask_df_dilated greenBGR view else view))

/-- C8: with an absent input image, `process_bright_field` returns a
triple of nulls and `process_dark_field` a quadruple of nulls, for every
configuration, as a value-based short-circuit (the embedded functions
are total, so no exception is possible). -/
theorem c8_absent_input_short_circuit (cv : CvPrims)
    (dilate : List ℕ → ℕ → ℕ → List ℕ) (tb td : ℤ) (sb sd be inv1 inv2 : Bool)
    (bk dk di : ℕ) (m : BfMethod) (dp : DogParams) :
    process_bright_field cv none tb sb be bk inv1 m dp = (none, none, none) ∧
    process_dark_field dilate none td sd dk di inv2 = (none, none, none, none) :=
  ⟨rfl, rfl⟩

/-- The mask sample produced by `cv2.threshold` at index `i` is the
per-pixel threshold of the source sample at `i`. -/
theorem cvThreshold_get? (inv : Bool) (t : ℤ) (l : List ℕ) (i v : ℕ)
    (hv : l.get? i = some v) :
    (cvThreshold inv t l).get? i = some (cvThresholdPixel inv t v) := by
  unfold cvThreshold
  rw [List.get?_map, hv]
  rfl

/-- The BF mask of the `blur_threshold` branch is the thresholded
post-blur image. -/
theorem process_bright_field_mask (cv : CvPrims) (img : List ℕ) (t : ℤ)
    (sb be inv : Bool) (bk : ℕ) (dp : DogParams) :
    (process_bright_field cv (some img) t sb be bk inv
        .blur_threshold dp).2.1 =
      some (cvThreshold inv t (bf_preprocessed cv img be bk)) := rfl

/-- C2 counterexample: with blur disabled, the single pixel 100 at
threshold 100 satisfies "value ≥ threshold" yet is marked background
(0, not 255): `cv2.THRESH_BINARY` is strict (`src > thresh`), so the
claimed ≥ / < polarity fails at pixels equal to the threshold. -/
theorem c2_counterexample :
    (100 : ℤ) ≤ (100 : ℕ) ∧
    (process_bright_field idPrims (some [100]) 100 true false 3 false
        .blur_threshold {}).2.1 = some [0] ∧
    (process_bright_field idPrims (some [100]) 100 true false 3 false
        .blur_threshold {}).2.1 ≠ some [255] := by
  refine ⟨by norm_num, rfl, by decide⟩

/-- C2 amended: for every blur configuration and every pixel of the
post-blur image, the `blur_threshold` mask marks exactly the pixels
whose post-blur value is strictly greater than the threshold as
foreground (255) when the inverse flag is false, and exactly the pixels
whose value is ≤ the threshold when the inverse flag is true. -/
theorem c2_blur_threshold_polarity (cv : CvPrims) (img : List ℕ) (t : ℤ)
    (sb be : Bool) (bk : ℕ) (dp : DogParams) (i v : ℕ)
    (hv : (bf_preprocessed cv img be bk).get? i = some v) :
    ((process_bright_field cv (some img) t sb be bk false
        .blur_threshold dp).2.1.bind (fun m => m.get? i) = some 255 ↔ t < (v : ℤ)) ∧
    ((process_bright_field cv (some img) t sb be bk true
        .blur_threshold dp).2.1.bind (fun m => m.get? i) = some 255 ↔ (v : ℤ) ≤ t) := by
  rw [process_bright_field_mask, process_bright_field_mask, Option.some_bind,
    Option.some_bind, cvThreshold_get? false t _ i v hv, cvThreshold_get? true t _ i v hv]
  by_cases h : t < (v : ℤ)
  · exact ⟨by simp [cvThresholdPixel, h], by simp [cvThresholdPixel, h]⟩
  · refine ⟨by simp [cvThresholdPixel, h], ?_⟩
    have hv' : (v : ℤ) ≤ t := le_of_not_lt h
    simp [cvThresholdPixel, h, hv']

/-- C2 witness: concrete instance of the amended polarity theorem at a
single pixel of value 7 and threshold 3. -/
theorem c2_blur_threshold_polarity_witness :
    ((process_bright_field idPrims (some [7]) 3 true false 3 false
        .blur_threshold {}).2.1.bind (fun m => m.get? 0) = some 255 ↔ (3 : ℤ) < (7 : ℕ)) ∧
    ((process_bright_field idPrims (some [7]) 3 true false 3 true
        .blur_threshold {}).2.1.bind (fun m => m.get? 0) = some 255 ↔ ((7 : ℕ) : ℤ) ≤ 3) :=
  c2_blur_threshold_polarity idPrims [7] 3 true false 3 {} 0 7 rfl

/-- C6: for the same image, threshold and blur settings, the
`blur_threshold` masks with inverse flag false and true are exact
bitwise complements: every pixel is 255 in exactly one of the two. -/
theorem c6_inverse_masks_complement (cv : CvPrims) (img : List ℕ) (t : ℤ)
    (sb be : Bool) (bk : ℕ) (dp : DogParams) (i v : ℕ)
    (hv : (bf_preprocessed cv img be bk).get? i = some v) :
    ((process_bright_field cv (some img) t sb be bk false
        .blur_threshold dp).2.1.bind (fun m => m.get? i) = some 255 ∧
     (process_bright_field cv (some img) t sb be bk true
        .blur_threshold dp).2.1.bind (fun m => m.get? i) = some 0) ∨
    ((process_bright_field cv (some img) t sb be bk false
        .blur_threshold dp).2.1.bind (fun m => m.get? i) = some 0 ∧
     (process_bright_field cv (some img) t sb be bk true
        .blur_threshold dp).2.1.bind (fun m => m.get? i) = some 255) := by
  rw [process_bright_field_mask, process_bright_field_mask, Option.some_bind,
    Option.some_bind, cvThreshold_get? false t _ i v hv, cvThreshold_get? true t _ i v hv]
  by_cases h : t < (v : ℤ)
  · exact Or.inl ⟨by simp [cvThresholdPixel, h], by simp [cvThresholdPixel, h]⟩
  · exact Or.inr ⟨by simp [cvThresholdPixel, h], by simp [cvThresholdPixel, h]⟩

/-- C6 witness: the complement property evaluated at a single pixel of
value 7 and threshold 3. -/
theorem c6_inverse_masks_complement_witness :
    ((process_bright_field idPrims (some [7]) 3 true false 3 false
        .blur_threshold {}).2.1.bind (fun m => m.get? 0) = some 255 ∧
     (process_bright_field idPrims (some [7]) 3 true false 3 true
        .blur_threshold {}).2.1.bind (fun m => m.get? 0) = some 0) ∨
    ((process_bright_field idPrims (some [7]) 3 true false 3 false
        .blur_threshold {}).2.1.bind (fun m => m.get? 0) = some 0 ∧
     (process_bright_field idPrims (some [7]) 3 true false 3 true
        .blur_threshold {}).2.1.bind (fun m => m.get? 0) = some 255) :=
  c6_inverse_masks_complement idPrims [7] 3 true false 3 {} 0 7 rfl

/-- Truncation toward zero maps a rational in `[lo, 255]` (with `lo` an
integer) back into the integer range `[lo, 255]`. -/
theorem pyInt_range (lo : ℤ) (q : ℚ) (h1 : (lo : ℚ) ≤ q) (h2 : q ≤ 255) :
    lo ≤ pyInt q ∧ pyInt q ≤ 255 := by
  unfold pyInt
  split_ifs with hq
  · constructor
    · have hfl : ⌊-q⌋ ≤ -lo := by
        rw [Int.floor_le_iff]
        push_cast
        linarith
      omega
    · have h0 : (0 : ℤ) ≤ ⌊-q⌋ := by
        rw [Int.le_floor]
        push_cast
        linarith
      omega
  · constructor
    · exact Int.le_floor.mpr h1
    · have := Int.floor_le q
      have : (⌊q⌋ : ℚ) ≤ 255 := le_trans this h2
      exact_mod_cast this

/-- C4: `robust_thr_median_mad` computes the truncated-integer clamp of
`median + k · 1.4826 · (MAD + 1e-6)` to `[min_thr, 255]`, and the
returned threshold always lies in `[min_thr, 255]`. -/
theorem c4_robust_threshold_range (img : List ℕ) (k : ℚ) (min_thr : ℤ)
    (hne : img ≠ []) (hmin : min_thr ≤ 255) :
    robust_thr_median_mad img k min_thr 255 =
      pyInt (min ((255 : ℤ) : ℚ) (max (min_thr : ℚ)
        (npMedian (img.map (fun v => (v : ℚ))) + k * (14826 / 10000) *
          (npMedian ((img.map (fun v => (v : ℚ))).map
            (fun v => |v - npMedian (img.map (fun u => (u : ℚ)))|)) + 1 / 1000000)))) ∧
    min_thr ≤ robust_thr_median_mad img k min_thr 255 ∧
    robust_thr_median_mad img k min_thr 255 ≤ 255 := by
  refine ⟨rfl, ?_⟩
  unfold robust_thr_median_mad
  apply pyInt_range
  · refine le_min ?_ (le_max_left _ _)
    exact_mod_cast hmin
  · exact min_le_left _ _

/-- C4 witness: a constant single-pixel image with `k = 0` and
`min_thr = 5` yields a threshold inside `[5, 255]`. -/
theorem c4_robust_threshold_range_witness :
    5 ≤ robust_thr_median_mad [0] 0 5 255 ∧
    robust_thr_median_mad [0] 0 5 255 ≤ 255 :=
  (c4_robust_threshold_range [0] 0 5 (by simp) (by norm_num)).2

/-- The shared pan/zoom state of `SyncImageViewer` (`shared_state`). -/
structure ViewState where
  scale : ℚ
  center_x : ℚ
  center_y : ℚ
  deriving DecidableEq

/-- `_widget_pos_to_image_pos`: maps a widget position to image
coordinates through the shared transform (`w`, `h` are the widget's
extent, `px`, `py` the pointer position). -/
def widget_pos_to_image_pos (st : ViewState) (w h px py : ℚ) : ℚ × ℚ :=
  ((px - w / 2) / st.scale + st.center_x, (py - h / 2) / st.scale + st.center_y)

/-- `_zoom_at`: multiply the scale by `factor`, clamp it to
`[0.05, 20.0]`, and re-anchor the center at the cursor; a change smaller
than `1e-6` is a no-op.  The boolean records whether the
`transform_changed` notification was emitted. -/
def zoom_at (st : ViewState) (w h px py factor : ℚ) : ViewState × Bool :=
  let old_scale := st.scale
  let new_scale := max (1 / 20) (min 20 (old_scale * factor))
  if |new_scale - old_scale| < 1 / 1000000 then (st, false)
  else
    let img_x_before := (px - w / 2) / old_scale + st.center_x
    let img_y_before := (py - h / 2) / old_scale + st.center_y
    (⟨new_scale, img_x_before - (px - w / 2) / new_scale,
      img_y_before - (py - h / 2) / new_scale⟩, true)

/-- C7: a zoom gesture multiplies the scale by the factor and clamps it
to `[0.05, 20.0]`; when the clamped scale differs from the old one by at
least `1e-6` the new center keeps the image coordinate under the cursor
fixed and the change notification fires, otherwise the state is
unchanged and no notification fires. -/
theorem c7_zoom_anchored_at_cursor (s cx cy w h px py f ns : ℚ)
    (hns : ns = max (1 / 20) (min 20 (s * f))) :
    (1 / 1000000 ≤ |ns - s| →
      zoom_at ⟨s, cx, cy⟩ w h px py f =
        (⟨ns, (px - w / 2) / s + cx - (px - w / 2) / ns,
          (py - h / 2) / s + cy - (py - h / 2) / ns⟩, true) ∧
      widget_pos_to_image_pos (zoom_at ⟨s, cx, cy⟩ w h px py f).1 w h px py =
        widget_pos_to_image_pos ⟨s, cx, cy⟩ w h px py) ∧
    (|ns - s| < 1 / 1000000 → zoom_at ⟨s, cx, cy⟩ w h px py f = (⟨s, cx, cy⟩, false)) := by
  subst hns
  constructor
  · intro hc
    have hcond : ¬(|max (1 / 20) (min 20 (s * f)) - s| < 1 / 1000000) := not_lt.mpr hc
    have heq : zoom_at ⟨s, cx, cy⟩ w h px py f =
        (⟨max (1 / 20) (min 20 (s * f)),
          (px - w / 2) / s + cx - (px - w / 2) / max (1 / 20) (min 20 (s * f)),
          (py - h / 2) / s + cy - (py - h / 2) / max (1 / 20) (min 20 (s * f))⟩, true) := by
      unfold zoom_at
      exact if_neg hcond
    refine ⟨heq, ?_⟩
    rw [heq]
    unfold widget_pos_to_image_pos
    refine Prod.ext ?_ ?_ <;> ring
  · intro hc
    unfold zoom_at
    exact if_pos hc

/-- C7 witness: at scale 1 a zoom-in by 5/4 anchored at the point
(30, 40) of a 100×100 widget produces the predicted state and keeps the
cursor's image coordinate fixed. -/
theorem c7_zoom_anchored_at_cursor_witness :
    zoom_at ⟨1, 0, 0⟩ 100 100 30 40 (5 / 4) =
      (⟨5 / 4, (30 - 100 / 2) / 1 + 0 - (30 - 100 / 2) / (5 / 4),
        (40 - 100 / 2) / 1 + 0 - (40 - 100 / 2) / (5 / 4)⟩, true) ∧
    widget_pos_to_image_pos (zoom_at ⟨1, 0, 0⟩ 100 100 30 40 (5 / 4)).1 100 100 30 40 =
      widget_pos_to_image_pos ⟨1, 0, 0⟩ 100 100 30 40 :=
  (c7_zoom_anchored_at_cursor 1 0 0 100 100 30 40 (5 / 4) (5 / 4)
    (by norm_num)).1
    (by rw [abs_of_nonneg (by norm_num : (0 : ℚ) ≤ 5 / 4 - 1)]; norm_num)

/-- The ROI rectangle `(x, y, w, h)` in full-frame image coordinates. -/
structure RoiRect where
  x : ℚ
  y : ℚ
  w : ℚ
  h : ℚ
  deriving DecidableEq

/-- `_clamp_roi_rect`: floor the size at 5 and clamp the origin to
`[0, extent - size]` against the pixmap extents `pw × ph`. -/
def clamp_roi_rect (pw ph : ℚ) (r : RoiRect) : RoiRect :=
  let w := max r.w 5
  let h := max r.h 5
  ⟨max 0 (min r.x (pw - w)), max 0 (min r.y (ph - h)), w, h⟩

/-- One ROI pointer-move event: a translation or a corner-handle resize,
with the cumulative image-space delta since pointer-down. -/
inductive RoiGesture where
  | move (dx dy : ℚ)
  | resize (handle : ℕ) (dx dy : ℚ)

/-- The raw resize candidate of `mouseMoveEvent`: each corner handle
(0 = top-left, 1 = top-right, 2 = bottom-left, 3 = bottom-right) moves
the two edges meeting at that corner. -/
def resize_candidate (r : RoiRect) (handle : ℕ) (dx dy : ℚ) : RoiRect :=
  match handle with
  | 0 => ⟨r.x + dx, r.y + dy, r.w - dx, r.h - dy⟩
  | 1 => ⟨r.x, r.y + dy, r.w + dx, r.h - dy⟩
  | 2 => ⟨r.x + dx, r.y, r.w - dx, r.h + dy⟩
  | _ => ⟨r.x, r.y, r.w + dx, r.h + dy⟩

/-- The four sequential minimum-size pin checks of `mouseMoveEvent`:
an edge that would make the size drop below 5 is pinned so the size is
exactly 5. -/
def enforce_min_size (handle : ℕ) (r : RoiRect) : RoiRect :=
  let r1 := if (handle = 0 ∨ handle = 2) ∧ r.w < 5 then
    (⟨r.x + r.w - 5, r.y, 5, r.h⟩ : RoiRect) else r
  let r2 := if (handle = 0 ∨ handle = 1) ∧ r1.h < 5 then
    (⟨r1.x, r1.y + r1.h - 5, r1.w, 5⟩ : RoiRect) else r1
  let r3 := if (handle = 1 ∨ handle = 3) ∧ r2.w < 5 then
    (⟨r2.x, r2.y, 5, r2.h⟩ : RoiRect) else r2
  if (handle = 2 ∨ handle = 3) ∧ r3.h < 5 then
    (⟨r3.x, r3.y, r3.w, 5⟩ : RoiRect) else r3

/-- One ROI gesture applied to the rectangle captured at pointer-down,
ending in `_clamp_roi_rect` exactly as in `mouseMoveEvent`. -/
def apply_roi_gesture (pw ph : ℚ) (r : RoiRect) (g : RoiGesture) : RoiRect :=
  match g with
  | .move dx dy => clamp_roi_rect pw ph ⟨r.x + dx, r.y + dy, r.w, r.h⟩
  | .resize handle dx dy =>
    clamp_roi_rect pw ph (enforce_min_size handle (resize_candidate r handle dx dy))

/-- A sequence of ROI gestures. -/
def apply_roi_gestures (pw ph : ℚ) (r : RoiRect) (gs : List RoiGesture) : RoiRect :=
  gs.foldl (apply_roi_gesture pw ph) r

/-- The invariant `_clamp_roi_rect` actually establishes: sizes at least
5, nonnegative origin, origin at most `max 0 (extent - size)`. -/
def roi_rect_invariant (pw ph : ℚ) (r : RoiRect) : Prop :=
  5 ≤ r.w ∧ 5 ≤ r.h ∧ 0 ≤ r.x ∧ 0 ≤ r.y ∧
  r.x ≤ max 0 (pw - r.w) ∧ r.y ≤ max 0 (ph - r.h)

/-- `_clamp_roi_rect` establishes `roi_rect_invariant` unconditionally. -/
theorem clamp_roi_rect_invariant (pw ph : ℚ) (r : RoiRect) :
    roi_rect_invariant pw ph (clamp_roi_rect pw ph r) := by
  unfold clamp_roi_rect roi_rect_invariant
  refine ⟨le_max_right _ _, le_max_right _ _, le_max_left _ _, le_max_left _ _, ?_, ?_⟩ <;>
    exact max_le (le_max_left _ _) (le_trans (min_le_right _ _) (le_max_right _ _))

/-- C3 counterexample: on a 10×10 image, starting from the valid ROI
`(0, 0, 10, 10)`, one bottom-right resize drag with `dx = 100` yields
the rectangle `(0, 0, 110, 10)`, whose right edge `x + w = 110` exceeds
the image width 10: `_clamp_roi_rect` never caps the size at the image
extent, so `x + w ≤ image_width` fails. -/
theorem c3_counterexample :
    apply_roi_gestures 10 10 ⟨0, 0, 10, 10⟩ [RoiGesture.resize 3 100 0] =
      ⟨0, 0, 110, 10⟩ ∧
    ¬((apply_roi_gestures 10 10 ⟨0, 0, 10, 10⟩ [RoiGesture.resize 3 100 0]).x +
        (apply_roi_gestures 10 10 ⟨0, 0, 10, 10⟩ [RoiGesture.resize 3 100 0]).w ≤ 10) := by
  have heq : apply_roi_gestures 10 10 ⟨0, 0, 10, 10⟩ [RoiGesture.resize 3 100 0] =
      ⟨0, 0, 110, 10⟩ := by
    simp only [apply_roi_gestures, List.foldl_cons, List.foldl_nil, apply_roi_gesture,
      resize_candidate, enforce_min_size, clamp_roi_rect]
    norm_num [min_def, max_def]
  refine ⟨heq, ?_⟩
  rw [heq]
  norm_num

/-- C3 amended: after any nonempty sequence of move/resize gestures the
rectangle satisfies `w ≥ 5`, `h ≥ 5`, `x ≥ 0`, `y ≥ 0` and
`x ≤ max 0 (W - w)`, `y ≤ max 0 (H - h)`; consequently `x + w ≤ W`
(resp. `y + h ≤ H`) holds whenever `w ≤ W` (resp. `h ≤ H`), but a resize
can grow the rectangle beyond the image extent, in which case the origin
is clamped to 0 and the far edge sticks out. -/
theorem c3_roi_gesture_invariant (pw ph : ℚ) (r : RoiRect)
    (gs : List RoiGesture) (hne : gs ≠ []) :
    roi_rect_invariant pw ph (apply_roi_gestures pw ph r gs) ∧
    ((apply_roi_gestures pw ph r gs).w ≤ pw →
      (apply_roi_gestures pw ph r gs).x + (apply_roi_gestures pw ph r gs).w ≤ pw) ∧
    ((apply_roi_gestures pw ph r gs).h ≤ ph →
      (apply_roi_gestures pw ph r gs).y + (apply_roi_gestures pw ph r gs).h ≤ ph) := by
  have hinv : roi_rect_invariant pw ph (apply_roi_gestures pw ph r gs) := by
    induction gs using List.reverseRecOn with
    | nil => exact absurd rfl hne
    | append_singleton init g ih =>
      have : apply_roi_gestures pw ph r (init ++ [g]) =
          apply_roi_gesture pw ph (apply_roi_gestures pw ph r init) g := by
        unfold apply_roi_gestures
        rw [List.foldl_append]
        rfl
      rw [this]
      cases g with
      | move dx dy => exact clamp_roi_rect_invariant pw ph _
      | resize handle dx dy => exact clamp_roi_rect_invariant pw ph _
  refine ⟨hinv, ?_, ?_⟩
  · intro hw
    have hx := hinv.2.2.2.2.1
    have : max 0 (pw - (apply_roi_gestures pw ph r gs).w) =
        pw - (apply_roi_gestures pw ph r gs).w :=
      max_eq_right (sub_nonneg.mpr hw)
    rw [this] at hx
    linarith
  · intro hh
    have hy := hinv.2.2.2.2.2
    have : max 0 (ph - (apply_roi_gestures pw ph r gs).h) =
        ph - (apply_roi_gestures pw ph r gs).h :=
      max_eq_right (sub_nonneg.mpr hh)
    rw [this] at hy
    linarith

/-- C3 witness: one move gesture on a 20×20 image from the rectangle
`(1, 1, 6, 6)` lands in a state satisfying the amended invariant. -/
theorem c3_roi_gesture_invariant_witness :
    roi_rect_invariant 20 20 (apply_roi_gestures 20 20 ⟨1, 1, 6, 6⟩ [RoiGesture.move 2 3]) ∧
    ((apply_roi_gestures 20 20 ⟨1, 1, 6, 6⟩ [RoiGesture.move 2 3]).w ≤ 20 →
      (apply_roi_gestures 20 20 ⟨1, 1, 6, 6⟩ [RoiGesture.move 2 3]).x +
        (apply_roi_gestures 20 20 ⟨1, 1, 6, 6⟩ [RoiGesture.move 2 3]).w ≤ 20) ∧
    ((apply_roi_gestures 20 20 ⟨1, 1, 6, 6⟩ [RoiGesture.move 2 3]).h ≤ 20 →
      (apply_roi_gestures 20 20 ⟨1, 1, 6, 6⟩ [RoiGesture.move 2 3]).y +
        (apply_roi_gestures 20 20 ⟨1, 1, 6, 6⟩ [RoiGesture.move 2 3]).h ≤ 20) :=
  c3_roi_gesture_invariant 20 20 ⟨1, 1, 6, 6⟩ [RoiGesture.move 2 3] (by simp)

/-- The defensive ROI re-clamp at the top of `perform_calculation`:
`x = max(0, min(int(x), W - 1))`, `y` likewise against `H`,
`w = max(1, min(int(w), W - x))`, `h` likewise against `H - y`. -/
def roi_clamp_for_calc (x0 y0 w0 h0 : ℚ) (img_w img_h : ℤ) : ℤ × ℤ × ℤ × ℤ :=
  let x := max 0 (min (pyInt x0) (img_w - 1))
  let y := max 0 (min (pyInt y0) (img_h - 1))
  let w := max 1 (min (pyInt w0) (img_w - x))
  let h := max 1 (min (pyInt h0) (img_h - y))
  (x, y, w, h)

/-- C10: for any stored ROI rect and any image with `W ≥ 1`, `H ≥ 1`,
the re-clamped rect satisfies `0 ≤ x ≤ W-1`, `0 ≤ y ≤ H-1`,
`1 ≤ w ≤ W-x` and `1 ≤ h ≤ H-y`, so the crop is non-empty and
in-bounds. -/
theorem c10_calc_clamp_in_bounds (x0 y0 w0 h0 : ℚ) (W H : ℤ)
    (hW : 1 ≤ W) (hH : 1 ≤ H) :
    0 ≤ (roi_clamp_for_calc x0 y0 w0 h0 W H).1 ∧
    (roi_clamp_for_calc x0 y0 w0 h0 W H).1 ≤ W - 1 ∧
    0 ≤ (roi_clamp_for_calc x0 y0 w0 h0 W H).2.1 ∧
    (roi_clamp_for_calc x0 y0 w0 h0 W H).2.1 ≤ H - 1 ∧
    1 ≤ (roi_clamp_for_calc x0 y0 w0 h0 W H).2.2.1 ∧
    (roi_clamp_for_calc x0 y0 w0 h0 W H).2.2.1 ≤
      W - (roi_clamp_for_calc x0 y0 w0 h0 W H).1 ∧
    1 ≤ (roi_clamp_for_calc x0 y0 w0 h0 W H).2.2.2 ∧
    (roi_clamp_for_calc x0 y0 w0 h0 W H).2.2.2 ≤
      H - (roi_clamp_for_calc x0 y0 w0 h0 W H).2.1 := by
  simp only [roi_clamp_for_calc]
  omega

/-- C10 witness: a wildly out-of-range stored rect (negative fractional
origin, oversized width) against a 10×10 image is clamped into bounds. -/
theorem c10_calc_clamp_in_bounds_witness :
    0 ≤ (roi_clamp_for_calc (-7 / 2) 2 100 (3 / 2) 10 10).1 ∧
    (roi_clamp_for_calc (-7 / 2) 2 100 (3 / 2) 10 10).1 ≤ 10 - 1 ∧
    0 ≤ (roi_clamp_for_calc (-7 / 2) 2 100 (3 / 2) 10 10).2.1 ∧
    (roi_clamp_for_calc (-7 / 2) 2 100 (3 / 2) 10 10).2.1 ≤ 10 - 1 ∧
    1 ≤ (roi_clamp_for_calc (-7 / 2) 2 100 (3 / 2) 10 10).2.2.1 ∧
    (roi_clamp_for_calc (-7 / 2) 2 100 (3 / 2) 10 10).2.2.1 ≤
      10 - (roi_clamp_for_calc (-7 / 2) 2 100 (3 / 2) 10 10).1 ∧
    1 ≤ (roi_clamp_for_calc (-7 / 2) 2 100 (3 / 2) 10 10).2.2.2 ∧
    (roi_clamp_for_calc (-7 / 2) 2 100 (3 / 2) 10 10).2.2.2 ≤
      10 - (roi_clamp_for_calc (-7 / 2) 2 100 (3 / 2) 10 10).2.1 :=
  c10_calc_clamp_in_bounds (-7 / 2) 2 100 (3 / 2) 10 10 (by norm_num) (by norm_num)

/-- `cv2.bitwise_and(mask_bf, cv2.bitwise_not(mask_df_dilated))`:
the "defect" mask of `perform_calculation`.  `cv2.bitwise_not` on
`uint8` is complement of the low 8 bits, i.e. XOR with 255. -/
def mask_defect (bf df : List ℕ) : List ℕ :=
  List.zipWith (fun a b => a &&& (255 ^^^ b)) bf df

/-- `cv2.bitwise_and(mask_bf, mask_df_dilated)`: the overlap mask. -/
def mask_common (bf df : List ℕ) : List ℕ :=
  List.zipWith (fun a b => a &&& b) bf df

/-- `cv2.bitwise_and(mask_df_dilated, cv2.bitwise_not(mask_bf))`:
the DF-only mask. -/
def mask_df_only (bf df : List ℕ) : List ℕ :=
  List.zipWith (fun a b => b &&& (255 ^^^ a)) bf df

/-- The pointwise OR of the two masks (`M_bf OR M_df`). -/
def mask_union (bf df : List ℕ) : List ℕ :=
  List.zipWith (fun a b => a ||| b) bf df

/-- The result-overlay compositing of `perform_calculation` (lines
849-861; the ROI path at 792-804 runs the identical statements on the
cropped window): start from the BF grayscale converted to BGR, then
paint red over the defect mask, green over the DF-only mask (or the
whole dilated DF mask when only DF is shown), yellow over the overlap,
according to the two show flags. -/
def compose_result (gray bf df : List ℕ) (show_bf show_df : Bool) : List Color :=
  let view := gray.map gray2bgr
  if show_bf && show_df then
    paintWhere (mask_common bf df) yellowBGR
      (paintWhere (mask_df_only bf df) greenBGR
        (paintWhere (mask_defect bf df) redBGR view))
  else if show_bf && !show_df then
    paintWhere (mask_defect bf df) redBGR view
  else if !show_bf && show_df then
    paintWhere df greenBGR view
  else view

/-- A sequence of `view[mask == 255] = color` painting passes, applied
left to right. -/
def paint_passes (ps : List (List ℕ × Color)) (view : List Color) : List Color :=
  ps.foldl (fun v mc => paintWhere mc.1 mc.2 v) view

/-- Two masks never both hold 255 at the same index. -/
def DisjMasks (m1 m2 : List ℕ) : Prop :=
  ∀ p ∈ List.zip m1 m2, ¬(p.1 = 255 ∧ p.2 = 255)

/-- An element of `zipWith f l1 l2` at index `i` is `f` of the sources
at `i`. -/
theorem zipWith_get?_some {α β γ : Type} (f : α → β → γ) (l1 : List α)
    (l2 : List β) (i : ℕ) (a : α) (b : β) (h1 : l1.get? i = some a)
    (h2 : l2.get? i = some b) :
    (List.zipWith f l1 l2).get? i = some (f a b) := by
  rw [List.get?_zipWith', h1, h2]
  rfl

/-- A painting pass at an index with mask sample `mv` leaves the pixel
unless `mv = 255`. -/
theorem paintWhere_get? (m : List ℕ) (c : Color) (v : List Color) (i mv : ℕ)
    (p : Color) (hm : m.get? i = some mv) (hp : v.get? i = some p) :
    (paintWhere m c v).get? i = some (if mv = 255 then c else p) := by
  unfold paintWhere
  rw [List.get?_zipWith', hm, hp]
  rfl

/-- Two derived masks built over the same pair of source masks are
index-wise disjoint as soon as their combiners are never both 255 on
{0, 255}-valued inputs. -/
theorem disjMasks_zipWith (f g : ℕ → ℕ → ℕ) :
    ∀ (bf df : List ℕ), (∀ v ∈ bf, v = 0 ∨ v = 255) →
    (∀ v ∈ df, v = 0 ∨ v = 255) →
    (∀ a b, (a = 0 ∨ a = 255) → (b = 0 ∨ b = 255) → ¬(f a b = 255 ∧ g a b = 255)) →
    DisjMasks (List.zipWith f bf df) (List.zipWith g bf df) := by
  intro bf
  induction bf with
  | nil => intro df _ _ _ p hp; simp [List.zip] at hp
  | cons a t ih =>
    intro df hbf hdf H p hp
    cases df with
    | nil => simp [List.zip] at hp
    | cons b t2 =>
      simp only [List.zipWith_cons_cons, List.zip_cons_cons, List.mem_cons] at hp
      rcases hp with rfl | hp
      · exact H a b (hbf a (by simp)) (hdf b (by simp))
      · exact ih t2 (fun v hv => hbf v (by simp [hv])) (fun v hv => hdf v (by simp [hv]))
          H p hp

/-- Painting passes with index-wise disjoint masks commute. -/
theorem paintWhere_comm (c1 c2 : Color) :
    ∀ (m1 m2 : List ℕ) (v : List Color), DisjMasks m1 m2 →
    paintWhere m1 c1 (paintWhere m2 c2 v) = paintWhere m2 c2 (paintWhere m1 c1 v) := by
  intro m1
  induction m1 with
  | nil => intro m2 v _; simp [paintWhere]
  | cons a t ih =>
    intro m2 v hdisj
    cases m2 with
    | nil => simp [paintWhere]
    | cons b t2 =>
      cases v with
      | nil => simp [paintWhere]
      | cons p tv =>
        have hhead : ¬(a = 255 ∧ b = 255) := hdisj (a, b) (by simp)
        have htail : DisjMasks t t2 := fun q hq => hdisj q (by simp [hq])
        simp only [paintWhere, List.zipWith_cons_cons]
        rw [show List.zipWith (fun m p => if m = 255 then c1 else p) t
            (List.zipWith (fun m p => if m = 255 then c2 else p) t2 tv) =
            List.zipWith (fun m p => if m = 255 then c2 else p) t2
            (List.zipWith (fun m p => if m = 255 then c1 else p) t tv) from ih t2 tv htail]
        by_cases ha : a = 255
        · have hb : ¬ b = 255 := fun hb => hhead ⟨ha, hb⟩
          simp [ha, hb]
        · by_cases hb : b = 255 <;> simp [ha, hb]

/-- C5: with both masks shown, the result overlay is red exactly where
`M_bf AND NOT M_df`, green exactly where `M_df AND NOT M_bf`, yellow
exactly where `M_bf AND M_df`, and the BF grayscale value elsewhere. -/
theorem c5_both_masks_overlay (gray bf df : List ℕ) (i gv bv dv : ℕ)
    (hg : gray.get? i = some gv) (hb : bf.get? i = some bv)
    (hd : df.get? i = some dv) (hbv : bv = 0 ∨ bv = 255)
    (hdv : dv = 0 ∨ dv = 255) :
    (compose_result gray bf df true true).get? i =
      some (if bv = 255 ∧ dv = 255 then yellowBGR
            else if dv = 255 then greenBGR
            else if bv = 255 then redBGR
            else gray2bgr gv) := by
  have hview : (gray.map gray2bgr).get? i = some (gray2bgr gv) := by
    rw [List.get?_map, hg]
    rfl
  have hdef := zipWith_get?_some (fun a b => a &&& (255 ^^^ b)) bf df i bv dv hb hd
  have hdfo := zipWith_get?_some (fun a b => b &&& (255 ^^^ a)) bf df i bv dv hb hd
  have hcom := zipWith_get?_some (fun a b => a &&& b) bf df i bv dv hb hd
  have hA := paintWhere_get? (mask_defect bf df) redBGR (gray.map gray2bgr) i _ _ hdef hview
  have hB := paintWhere_get? (mask_df_only bf df) greenBGR _ i _ _ hdfo hA
  have hC := paintWhere_get? (mask_common bf df) yellowBGR _ i _ _ hcom hB
  have e : compose_result gray bf df true true =
      paintWhere (mask_common bf df) yellowBGR
        (paintWhere (mask_df_only bf df) greenBGR
          (paintWhere (mask_defect bf df) redBGR (gray.map gray2bgr))) := rfl
  rw [e, hC]
  rcases hbv with rfl | rfl <;> rcases hdv with rfl | rfl <;> simp

/-- C5 witness: the coloring evaluated at the four pixel classes of the
masks `bf = [255, 255, 0, 0]`, `df = [255, 0, 255, 0]`. -/
theorem c5_both_masks_overlay_witness :
    (compose_result [9, 9, 9, 9] [255, 255, 0, 0] [255, 0, 255, 0] true true).get? 1 =
      some (if (255 : ℕ) = 255 ∧ (0 : ℕ) = 255 then yellowBGR
            else if (0 : ℕ) = 255 then greenBGR
            else if (255 : ℕ) = 255 then redBGR
            else gray2bgr 9) :=
  c5_both_masks_overlay [9, 9, 9, 9] [255, 255, 0, 0] [255, 0, 255, 0] 1 9 255 0
    rfl rfl rfl (Or.inr rfl) (Or.inl rfl)

/-- C1 counterexample: with BF display on, DF display off and no ROI,
a pixel set in the raw BF mask but also covered by the DF mask is NOT
painted red: the no-ROI BF-mask-only branch paints the DF-subtracted
defect mask `M_bf AND NOT M_df` (line 859 uses `mask_defect`), not the
raw BF mask as claimed. -/
theorem c1_counterexample :
    compose_result [0] [255] [255] true false = [(0, 0, 0)] ∧
    compose_result [0] [255] [255] true false ≠ [redBGR] := by
  exact ⟨rfl, by decide⟩

/-- C1 amended: when only the BF mask is shown the overlay paints the
DF-subtracted defect mask `M_bf AND NOT M_df` in red — in the no-ROI
branch just as in the ROI branch — and leaves every other pixel at the
BF grayscale value; the raw BF mask is not used. -/
theorem c1_bf_only_paints_defect_mask (gray bf df : List ℕ) (i gv bv dv : ℕ)
    (hg : gray.get? i = some gv) (hb : bf.get? i = some bv)
    (hd : df.get? i = some dv) (hbv : bv = 0 ∨ bv = 255)
    (hdv : dv = 0 ∨ dv = 255) :
    (compose_result gray bf df true false).get? i =
      some (if bv = 255 ∧ dv = 0 then redBGR else gray2bgr gv) := by
  have hview : (gray.map gray2bgr).get? i = some (gray2bgr gv) := by
    rw [List.get?_map, hg]
    rfl
  have hdef := zipWith_get?_some (fun a b => a &&& (255 ^^^ b)) bf df i bv dv hb hd
  have hA := paintWhere_get? (mask_defect bf df) redBGR (gray.map gray2bgr) i _ _ hdef hview
  have e : compose_result gray bf df true false =
      paintWhere (mask_defect bf df) redBGR (gray.map gray2bgr) := rfl
  rw [e, hA]
  rcases hbv with rfl | rfl <;> rcases hdv with rfl | rfl <;> simp

/-- C1 witness: a BF-only defect pixel (`bf = 255`, `df = 0`) is painted
red by the BF-mask-only branch. -/
theorem c1_bf_only_paints_defect_mask_witness :
    (compose_result [7] [255] [0] true false).get? 0 =
      some (if (255 : ℕ) = 255 ∧ (0 : ℕ) = 0 then redBGR else gray2bgr 7) :=
  c1_bf_only_paints_defect_mask [7] [255] [0] 0 7 255 0 rfl rfl rfl
    (Or.inr rfl) (Or.inl rfl)

/-- Two masks derived by `zipWith` from the same {0,255}-valued pair are
never both 255 at any index, given that their combiners exclude it. -/
theorem mask_pair_not_both (f g : ℕ → ℕ → ℕ) (bf df : List ℕ)
    (hbf : ∀ v ∈ bf, v = 0 ∨ v = 255) (hdf : ∀ v ∈ df, v = 0 ∨ v = 255)
    (H : ∀ a b, (a = 0 ∨ a = 255) → (b = 0 ∨ b = 255) →
      ¬(f a b = 255 ∧ g a b = 255)) (i : ℕ) :
    ¬((List.zipWith f bf df).get? i = some 255 ∧
      (List.zipWith g bf df).get? i = some 255) := by
  rintro ⟨h1, h2⟩
  rcases hbi : bf.get? i with _ | a
  · rw [List.get?_zipWith', hbi] at h1
    simp at h1
  · rcases hdi : df.get? i with _ | b
    · rw [List.get?_zipWith', hbi, hdi] at h1
      simp at h1
    · rw [zipWith_get?_some f bf df i a b hbi hdi] at h1
      rw [zipWith_get?_some g bf df i a b hbi hdi] at h2
      simp only [Option.some.injEq] at h1 h2
      exact H a b (hbf a (List.get?_mem hbi)) (hdf b (List.get?_mem hdi)) ⟨h1, h2⟩

/-- C9: for {0,255}-valued masks the three composite category masks are
pairwise disjoint, their union is `M_bf OR M_df`, and consequently the
three painting passes can be permuted without changing the overlay. -/
theorem c9_category_masks_partition (bf df : List ℕ)
    (hbf : ∀ v ∈ bf, v = 0 ∨ v = 255) (hdf : ∀ v ∈ df, v = 0 ∨ v = 255) :
    (∀ i, ¬((mask_defect bf df).get? i = some 255 ∧
            (mask_df_only bf df).get? i = some 255)) ∧
    (∀ i, ¬((mask_defect bf df).get? i = some 255 ∧
            (mask_common bf df).get? i = some 255)) ∧
    (∀ i, ¬((mask_df_only bf df).get? i = some 255 ∧
            (mask_common bf df).get? i = some 255)) ∧
    (∀ i, ((mask_defect bf df).get? i = some 255 ∨
           (mask_df_only bf df).get? i = some 255 ∨
           (mask_common bf df).get? i = some 255) ↔
          (mask_union bf df).get? i = some 255) ∧
    (∀ (ps : List (List ℕ × Color)) (view : List Color),
      ps.Perm [(mask_defect bf df, redBGR), (mask_df_only bf df, greenBGR),
               (mask_common bf df, yellowBGR)] →
      paint_passes ps view =
        paint_passes [(mask_defect bf df, redBGR), (mask_df_only bf df, greenBGR),
                      (mask_common bf df, yellowBGR)] view) := by
  have dDO : DisjMasks (mask_defect bf df) (mask_df_only bf df) :=
    disjMasks_zipWith _ _ bf df hbf hdf
      (by rintro a b (rfl | rfl) (rfl | rfl) <;> decide)
  have dOD : DisjMasks (mask_df_only bf df) (mask_defect bf df) :=
    disjMasks_zipWith _ _ bf df hbf hdf
      (by rintro a b (rfl | rfl) (rfl | rfl) <;> decide)
  have dDC : DisjMasks (mask_defect bf df) (mask_common bf df) :=
    disjMasks_zipWith _ _ bf df hbf hdf
      (by rintro a b (rfl | rfl) (rfl | rfl) <;> decide)
  have dCD : DisjMasks (mask_common bf df) (mask_defect bf df) :=
    disjMasks_zipWith _ _ bf df hbf hdf
      (by rintro a b (rfl | rfl) (rfl | rfl) <;> decide)
  have dOC : DisjMasks (mask_df_only bf df) (mask_common bf df) :=
    disjMasks_zipWith _ _ bf df hbf hdf
      (by rintro a b (rfl | rfl) (rfl | rfl) <;> decide)
  have dCO : DisjMasks (mask_common bf df) (mask_df_only bf df) :=
    disjMasks_zipWith _ _ bf df hbf hdf
      (by rintro a b (rfl | rfl) (rfl | rfl) <;> decide)
  refine ⟨?_, ?_, ?_, ?_, ?_⟩
  · exact mask_pair_not_both _ _ bf df hbf hdf
      (by rintro a b (rfl | rfl) (rfl | rfl) <;> decide)
  · exact mask_pair_not_both _ _ bf df hbf hdf
      (by rintro a b (rfl | rfl) (rfl | rfl) <;> decide)
  · exact mask_pair_not_both _ _ bf df hbf hdf
      (by rintro a b (rfl | rfl) (rfl | rfl) <;> decide)
  · intro i
    rcases hbi : bf.get? i with _ | a
    · have hbi' : bf[i]? = none := by rw [← List.get?_eq_getElem?]; exact hbi
      simp [mask_defect, mask_df_only, mask_common, mask_union,
        List.getElem?_zipWith', hbi']
    · rcases hdi : df.get? i with _ | b
      · have hdi' : df[i]? = none := by rw [← List.get?_eq_getElem?]; exact hdi
        simp [mask_defect, mask_df_only, mask_common, mask_union,
          List.getElem?_zipWith', hdi']
      · unfold mask_defect mask_df_only mask_common mask_union
        rw [zipWith_get?_some _ bf df i a b hbi hdi,
          zipWith_get?_some _ bf df i a b hbi hdi,
          zipWith_get?_some _ bf df i a b hbi hdi,
          zipWith_get?_some _ bf df i a b hbi hdi]
        rcases hbf a (List.get?_mem hbi) with rfl | rfl <;>
          rcases hdf b (List.get?_mem hdi) with rfl | rfl <;> simp
  · intro ps view hperm
    unfold paint_passes
    refine hperm.foldl_eq' ?_ view
    intro x hx y hy z
    have hx' : x ∈ [(mask_defect bf df, redBGR), (mask_df_only bf df, greenBGR),
        (mask_common bf df, yellowBGR)] := hperm.subset hx
    have hy' : y ∈ [(mask_defect bf df, redBGR), (mask_df_only bf df, greenBGR),
        (mask_common bf df, yellowBGR)] := hperm.subset hy
    simp only [List.mem_cons, List.not_mem_nil, or_false] at hx' hy'
    rcases hx' with rfl | rfl | rfl <;> rcases hy' with rfl | rfl | rfl
    · rfl
    · exact paintWhere_comm _ _ _ _ z dOD
    · exact paintWhere_comm _ _ _ _ z dCD
    · exact paintWhere_comm _ _ _ _ z dDO
    · rfl
    · exact paintWhere_comm _ _ _ _ z dCO
    · exact paintWhere_comm _ _ _ _ z dDC
    · exact paintWhere_comm _ _ _ _ z dOC
    · rfl

/-- C9 witness: the partition properties evaluated on the concrete mask
pair `bf = [255, 0]`, `df = [255, 255]` (and, from the permutation
clause, swapping the red and green passes leaves the overlay unchanged). -/
theorem c9_category_masks_partition_witness :
    (¬((mask_defect [255, 0] [255, 255]).get? 0 = some 255 ∧
       (mask_df_only [255, 0] [255, 255]).get? 0 = some 255)) ∧
    (((mask_defect [255, 0] [255, 255]).get? 1 = some 255 ∨
      (mask_df_only [255, 0] [255, 255]).get? 1 = some 255 ∨
      (mask_common [255, 0] [255, 255]).get? 1 = some 255) ↔
     (mask_union [255, 0] [255, 255]).get? 1 = some 255) ∧
    paint_passes [(mask_df_only [255, 0] [255, 255], greenBGR),
                  (mask_defect [255, 0] [255, 255], redBGR),
                  (mask_common [255, 0] [255, 255], yellowBGR)] [(3, 3, 3), (4, 4, 4)] =
      paint_passes [(mask_defect [255, 0] [255, 255], redBGR),
                    (mask_df_only [255, 0] [255, 255], greenBGR),
                    (mask_common [255, 0] [255, 255], yellowBGR)] [(3, 3, 3), (4, 4, 4)] := by
  have h := c9_category_masks_partition [255, 0] [255, 255]
    (by intro v hv; simp at hv; rcases hv with rfl | rfl <;> simp)
    (by intro v hv; simp at hv; rcases hv with rfl | rfl <;> simp)
  exact ⟨h.1 0, h.2.2.2.1 1, h.2.2.2.2 _ _ (List.Perm.swap _ _ _)⟩

end AOI
